import Mathlib

/-!
Verification development for the dolt structural diff/merge slice.

Part one embeds the patch-ordering comparators of the `diff` package
(`PatchSort.Less`, `pathIsLess`, `fieldPathCompare`, `indexPathCompare`,
`hashIndexPathCompare`, `pathPartCompare`).  Part two embeds
`MergeCommits` from `go/libraries/doltcore/env/actions/merge.go`.

Machine integers from Go are modelled as `Int`/`Nat` (no overflow is
exercised by these functions), hashes as byte lists, and the Go `panic`
branches as `none` results of `Option`-valued functions.
-/

namespace DoltDiff

/-- The external `*types.Format` context together with the value-comparison
capability it parameterises: `valEquals f a b` models `a.Equals(f, b)` and
`valLess f a b` models `a.Less(f, b)` on `types.Value`. The value type `V`
is abstract. -/
structure Format (V : Type) where
  valEquals : V → V → Bool
  valLess : V → V → Bool

/-- The closed set of `types.PathPart` shapes used by the comparators:
`FieldPath` (a named field), `IndexPath` (a value index plus the `IntoKey`
flag) and `HashIndexPath` (a raw hash, modelled as a byte list, plus
`IntoKey`). -/
inductive PathPart (V : Type) where
  | FieldPath (Name : String)
  | IndexPath (Index : V) (IntoKey : Bool)
  | HashIndexPath (Hash : List Nat) (IntoKey : Bool)
deriving DecidableEq

/-- `types.Path`: an ordered sequence of path parts from the root. -/
abbrev Path (V : Type) := List (PathPart V)

/-- `bytes.Compare` on byte slices: lexicographic three-way comparison,
with a shorter strict prefix ordered first. -/
def bytesCompare : List Nat → List Nat → Int
  | [], [] => 0
  | [], _ :: _ => -1
  | _ :: _, [] => 1
  | a :: as, b :: bs =>
    if a < b then -1
    else if b < a then 1
    else bytesCompare as bs

/-- Lexicographic comparison of character sequences, the order Go's `<`
imposes on (valid UTF-8) strings. -/
def charListLess : List Char → List Char → Bool
  | _, [] => false
  | [], _ :: _ => true
  | a :: as, b :: bs =>
    if a.toNat < b.toNat then true
    else if b.toNat < a.toNat then false
    else charListLess as bs

/-- Go's `<` on strings: lexicographic on the character sequence. -/
def stringLess (s t : String) : Bool :=
  charListLess s.data t.data

/-- `fieldPathCompare(pp, o)` where `ppName` is `pp.Name`.  The Go `panic`
after the type switch is unrepresentable here because `PathPart` is a
closed sum covering exactly the three switch cases. -/
def fieldPathCompare {V : Type} (ppName : String) (o : PathPart V) : Option Int :=
  match o with
  | .FieldPath oName =>
    if ppName = oName then some 0
    else if stringLess ppName oName then some (-1)
    else some 1
  | .IndexPath _ _ => some (-1)
  | .HashIndexPath _ _ => some (-1)

/-- `indexPathCompare(format, pp, o)` where `ppIndex`, `ppIntoKey` are the
fields of `pp`. -/
def indexPathCompare {V : Type} (format : Format V) (ppIndex : V) (ppIntoKey : Bool)
    (o : PathPart V) : Option Int :=
  match o with
  | .FieldPath _ => some 1
  | .IndexPath oIndex oIntoKey =>
    if format.valEquals ppIndex oIndex then
      if ppIntoKey = oIntoKey then some 0
      else if ppIntoKey then some (-1)
      else some 1
    else if format.valLess ppIndex oIndex then some (-1)
    else some 1
  | .HashIndexPath _ _ => some (-1)

/-- `hashIndexPathCompare(pp, o)` where `ppHash`, `ppIntoKey` are the fields
of `pp`.  The inner `switch bytes.Compare(...)` falls through to
`panic("unreachable")` when the comparison result is none of -1, 0, 1;
that fall-through is modelled by the final `none`. -/
def hashIndexPathCompare {V : Type} (ppHash : List Nat) (ppIntoKey : Bool)
    (o : PathPart V) : Option Int :=
  match o with
  | .FieldPath _ => some 1
  | .IndexPath _ _ => some 1
  | .HashIndexPath oHash oIntoKey =>
    let c := bytesCompare ppHash oHash
    if c = -1 then some (-1)
    else if c = 0 then
      if ppIntoKey = oIntoKey then some 0
      else if ppIntoKey then some (-1)
      else some 1
    else if c = 1 then some 1
    else none

/-- `pathPartCompare(format, pp, pp2)`: dispatch on the dynamic type of the
first argument, as in the Go type switch. -/
def pathPartCompare {V : Type} (format : Format V) (pp pp2 : PathPart V) : Option Int :=
  match pp with
  | .FieldPath n => fieldPathCompare n pp2
  | .IndexPath i k => indexPathCompare format i k pp2
  | .HashIndexPath h k => hashIndexPathCompare h k pp2

/-- `pathIsLess(format, p1, p2)`: walk both paths from the root; the first
part comparison deciding -1 or 1 returns, otherwise (comparison 0) the
walk continues; if `p1` runs out first the answer is `len(p2) > len(p1)`,
and if `p2` runs out first the answer is `false`.  A `none` from
`pathPartCompare` (a Go panic) propagates. -/
def pathIsLess {V : Type} (format : Format V) : Path V → Path V → Option Bool
  | [], p2 => some (decide (p2.length > 0))
  | _ :: _, [] => some false
  | pp1 :: p1, pp2 :: p2 =>
    match pathPartCompare format pp1 pp2 with
    | none => none
    | some c =>
      if c = -1 then some true
      else if c = 1 then some false
      else pathIsLess format p1 p2

/-- `types.DiffChangeType`. -/
inductive DiffChangeType where
  | DiffChangeAdded
  | DiffChangeModified
  | DiffChangeRemoved
deriving DecidableEq

/-- The package-level priority map
`vals = map[types.DiffChangeType]int{Removed: 0, Modified: 1, Added: 2}`. -/
def vals : DiffChangeType → Nat
  | .DiffChangeRemoved => 0
  | .DiffChangeModified => 1
  | .DiffChangeAdded => 2

/-- Modelled from the spec: the `Difference` record produced by the diff
engine, `Path, ChangeType, OldValue, NewValue` (the struct itself lives
outside the reviewed slice; only `Path` and `ChangeType` are read by the
comparator). -/
structure Difference (V : Type) where
  Path : DoltDiff.Path V
  ChangeType : DiffChangeType
  OldValue : Option V := none
  NewValue : Option V := none
deriving DecidableEq

/-- Modelled from the spec: `types.Path.Equals` (outside the reviewed
slice) decides whether two paths are "exactly equal"; modelled as
structural equality of the part lists. -/
def pathEquals {V : Type} [DecidableEq V] (p1 p2 : Path V) : Bool :=
  decide (p1 = p2)

/-- The body of `PatchSort.Less` applied to the two fetched differences:
equal paths are ordered by the `vals` priority of their change types,
unequal paths by `pathIsLess`. -/
def diffLess {V : Type} [DecidableEq V] (format : Format V) (d1 d2 : Difference V) :
    Option Bool :=
  if pathEquals d1.Path d2.Path then
    some (decide (vals d1.ChangeType < vals d2.ChangeType))
  else
    pathIsLess format d1.Path d2.Path

/-- The `PatchSort` sort adapter: a patch together with its format. -/
structure PatchSort (V : Type) where
  patch : List (Difference V)
  format : Format V

/-- `PatchSort.Less(i, j)`; the in-bounds indexing of Go slices is carried
as explicit bound hypotheses. -/
def PatchSort.Less {V : Type} [DecidableEq V] (ps : PatchSort V) (i j : Nat)
    (hi : i < ps.patch.length) (hj : j < ps.patch.length) : Option Bool :=
  diffLess ps.format (ps.patch.get ⟨i, hi⟩) (ps.patch.get ⟨j, hj⟩)

/-- Incomparability of two values under a format's value order. -/
def valIncomp {V : Type} (format : Format V) (a b : V) : Prop :=
  format.valLess a b = false ∧ format.valLess b a = false

/-- The assumptions the diff engine makes of the external value-comparison
capability (the value graph supports structural equality and ordering
comparison): `valLess` is a strict weak order and `valEquals` coincides
with its incomparability. -/
structure Format.Lawful {V : Type} (format : Format V) : Prop where
  less_irrefl : ∀ a, format.valLess a a = false
  less_trans : ∀ a b c, format.valLess a b = true → format.valLess b c = true →
    format.valLess a c = true
  incomp_trans : ∀ a b c, valIncomp format a b → valIncomp format b c →
    valIncomp format a c
  equals_iff : ∀ a b, format.valEquals a b = true ↔ valIncomp format a b

theorem Format.Lawful.less_asymm {V : Type} {format : Format V} (hf : format.Lawful)
    {a b : V} (h : format.valLess a b = true) : format.valLess b a = false := by
  cases hba : format.valLess b a with
  | false => rfl
  | true =>
    have hc := hf.less_trans a b a h hba
    rw [hf.less_irrefl a] at hc
    exact Bool.noConfusion hc

theorem Format.Lawful.equals_refl {V : Type} {format : Format V} (hf : format.Lawful)
    (a : V) : format.valEquals a a = true :=
  (hf.equals_iff a a).mpr ⟨hf.less_irrefl a, hf.less_irrefl a⟩

theorem Format.Lawful.equals_symm {V : Type} {format : Format V} (hf : format.Lawful)
    (a b : V) : format.valEquals a b = format.valEquals b a := by
  cases hab : format.valEquals a b with
  | true =>
    have h := (hf.equals_iff a b).mp hab
    exact ((hf.equals_iff b a).mpr ⟨h.2, h.1⟩).symm
  | false =>
    cases hba : format.valEquals b a with
    | false => rfl
    | true =>
      have h := (hf.equals_iff b a).mp hba
      rw [(hf.equals_iff a b).mpr ⟨h.2, h.1⟩] at hab
      exact Bool.noConfusion hab

theorem Format.Lawful.equals_trans {V : Type} {format : Format V} (hf : format.Lawful)
    {a b c : V} (hab : format.valEquals a b = true) (hbc : format.valEquals b c = true) :
    format.valEquals a c = true :=
  (hf.equals_iff a c).mpr
    (hf.incomp_trans a b c ((hf.equals_iff a b).mp hab) ((hf.equals_iff b c).mp hbc))

theorem Format.Lawful.not_equals_total {V : Type} {format : Format V} (hf : format.Lawful)
    {a b : V} (h : format.valEquals a b = false) :
    format.valLess a b = true ∨ format.valLess b a = true := by
  cases hab : format.valLess a b with
  | true => exact Or.inl rfl
  | false =>
    cases hba : format.valLess b a with
    | true => exact Or.inr rfl
    | false =>
      rw [(hf.equals_iff a b).mpr ⟨hab, hba⟩] at h
      exact Bool.noConfusion h

theorem Format.Lawful.equals_less {V : Type} {format : Format V} (hf : format.Lawful)
    {a b c : V} (hab : format.valEquals a b = true) (hbc : format.valLess b c = true) :
    format.valLess a c = true := by
  have hinc := (hf.equals_iff a b).mp hab
  cases hac : format.valLess a c with
  | true => rfl
  | false =>
    cases hca : format.valLess c a with
    | true =>
      have := hf.less_trans b c a hbc hca
      rw [hinc.2] at this
      exact Bool.noConfusion this
    | false =>
      have h1 : valIncomp format b a := ⟨hinc.2, hinc.1⟩
      have h2 : valIncomp format a c := ⟨hac, hca⟩
      have h3 := hf.incomp_trans b a c h1 h2
      rw [h3.1] at hbc
      exact Bool.noConfusion hbc

theorem Format.Lawful.less_equals {V : Type} {format : Format V} (hf : format.Lawful)
    {a b c : V} (hab : format.valLess a b = true) (hbc : format.valEquals b c = true) :
    format.valLess a c = true := by
  have hinc := (hf.equals_iff b c).mp hbc
  cases hac : format.valLess a c with
  | true => rfl
  | false =>
    cases hca : format.valLess c a with
    | true =>
      have := hf.less_trans c a b hca hab
      rw [hinc.2] at this
      exact Bool.noConfusion this
    | false =>
      have h1 : valIncomp format a c := ⟨hac, hca⟩
      have h2 : valIncomp format c b := ⟨hinc.2, hinc.1⟩
      have h3 := hf.incomp_trans a c b h1 h2
      rw [h3.1] at hab
      exact Bool.noConfusion hab

/-- A concrete lawful format over natural-number values, used to exercise
the theorems on closed inputs. -/
def natFormat : Format Nat :=
  ⟨fun a b => a == b, fun a b => decide (a < b)⟩

theorem natFormat_lawful : natFormat.Lawful := by
  refine ⟨?_, ?_, ?_, ?_⟩
  · intro a; simp [natFormat]
  · intro a b c h1 h2
    simp only [natFormat, decide_eq_true_eq] at *
    omega
  · intro a b c h1 h2
    unfold valIncomp natFormat at *
    simp only [decide_eq_false_iff_not, not_lt] at *
    omega
  · intro a b
    unfold valIncomp natFormat
    simp only [beq_iff_eq, decide_eq_false_iff_not, not_lt]
    omega

theorem bytesCompare_refl (a : List Nat) : bytesCompare a a = 0 := by
  induction a with
  | nil => rfl
  | cons x xs ih => simp [bytesCompare, ih]

theorem bytesCompare_range (a b : List Nat) :
    bytesCompare a b = -1 ∨ bytesCompare a b = 0 ∨ bytesCompare a b = 1 := by
  induction a generalizing b with
  | nil => cases b <;> simp [bytesCompare]
  | cons x xs ih =>
    cases b with
    | nil => simp [bytesCompare]
    | cons y ys =>
      by_cases h1 : x < y
      · simp [bytesCompare, h1]
      · by_cases h2 : y < x
        · simp [bytesCompare, h1, h2]
        · simpa [bytesCompare, h1, h2] using ih ys

theorem bytesCompare_eq_zero_iff (a b : List Nat) : bytesCompare a b = 0 ↔ a = b := by
  induction a generalizing b with
  | nil => cases b <;> simp [bytesCompare]
  | cons x xs ih =>
    cases b with
    | nil => simp [bytesCompare]
    | cons y ys =>
      by_cases h1 : x < y
      · simp [bytesCompare, h1]
        omega
      · by_cases h2 : y < x
        · simp [bytesCompare, h1, h2]
          omega
        · have hxy : x = y := by omega
          simp [bytesCompare, h1, h2, hxy, ih]

theorem bytesCompare_neg (a b : List Nat) : bytesCompare b a = -bytesCompare a b := by
  induction a generalizing b with
  | nil => cases b <;> simp [bytesCompare]
  | cons x xs ih =>
    cases b with
    | nil => simp [bytesCompare]
    | cons y ys =>
      by_cases h1 : x < y
      · have h2 : ¬y < x := by omega
        simp [bytesCompare, h1, h2]
      · by_cases h2 : y < x
        · simp [bytesCompare, h1, h2]
        · simp [bytesCompare, h1, h2, ih]

theorem bytesCompare_trans {a b c : List Nat} (h1 : bytesCompare a b = -1)
    (h2 : bytesCompare b c = -1) : bytesCompare a c = -1 := by
  induction a generalizing b c with
  | nil =>
    cases b with
    | nil => exact absurd h1 (by simp [bytesCompare])
    | cons y ys =>
      cases c with
      | nil => exact absurd h2 (by simp [bytesCompare])
      | cons z zs => simp [bytesCompare]
  | cons x xs ih =>
    cases b with
    | nil => exact absurd h1 (by simp [bytesCompare])
    | cons y ys =>
      cases c with
      | nil => exact absurd h2 (by simp [bytesCompare])
      | cons z zs =>
        by_cases hxy : x < y
        · by_cases hyz : y < z
          · have hxz : x < z := by omega
            simp [bytesCompare, hxz]
          · by_cases hzy : z < y
            · exact absurd h2 (by simp [bytesCompare, hyz, hzy])
            · have hyz' : y = z := by omega
              have hxz : x < z := by omega
              simp [bytesCompare, hxz]
        · by_cases hyx : y < x
          · exact absurd h1 (by simp [bytesCompare, hxy, hyx])
          · have hxy' : x = y := by omega
            by_cases hyz : y < z
            · have hxz : x < z := by omega
              simp [bytesCompare, hxz]
            · by_cases hzy : z < y
              · exact absurd h2 (by simp [bytesCompare, hyz, hzy])
              · have hxz1 : ¬x < z := by omega
                have hxz2 : ¬z < x := by omega
                simp only [bytesCompare, hxy, hyx, hyz, hzy, hxz1, hxz2,
                  if_false, ite_false] at h1 h2 ⊢
                exact ih (b := ys) (c := zs) h1 h2

theorem charListLess_irrefl (a : List Char) : charListLess a a = false := by
  induction a with
  | nil => rfl
  | cons x xs ih => simp [charListLess, ih]

theorem charListLess_trans {a b c : List Char} (h1 : charListLess a b = true)
    (h2 : charListLess b c = true) : charListLess a c = true := by
  induction a generalizing b c with
  | nil =>
    cases b with
    | nil => exact absurd h1 (by simp [charListLess])
    | cons y ys =>
      cases c with
      | nil => exact absurd h2 (by simp [charListLess])
      | cons z zs => simp [charListLess]
  | cons x xs ih =>
    cases b with
    | nil => exact absurd h1 (by simp [charListLess])
    | cons y ys =>
      cases c with
      | nil => exact absurd h2 (by simp [charListLess])
      | cons z zs =>
        by_cases hxy : x.toNat < y.toNat
        · by_cases hyz : y.toNat < z.toNat
          · have hxz : x.toNat < z.toNat := by omega
            simp [charListLess, hxz]
          · by_cases hzy : z.toNat < y.toNat
            · exact absurd h2 (by simp [charListLess, hyz, hzy])
            · have hxz : x.toNat < z.toNat := by omega
              simp [charListLess, hxz]
        · by_cases hyx : y.toNat < x.toNat
          · exact absurd h1 (by simp [charListLess, hxy, hyx])
          · by_cases hyz : y.toNat < z.toNat
            · have hxz : x.toNat < z.toNat := by omega
              simp [charListLess, hxz]
            · by_cases hzy : z.toNat < y.toNat
              · exact absurd h2 (by simp [charListLess, hyz, hzy])
              · have hxz1 : ¬x.toNat < z.toNat := by omega
                have hxz2 : ¬z.toNat < x.toNat := by omega
                simp only [charListLess, hxy, hyx, hyz, hzy, hxz1, hxz2,
                  if_false, ite_false] at h1 h2 ⊢
                exact ih (b := ys) (c := zs) h1 h2

theorem charListLess_total_of_ne {a b : List Char} (h : a ≠ b) :
    charListLess a b = true ∨ charListLess b a = true := by
  induction a generalizing b with
  | nil =>
    cases b with
    | nil => exact absurd rfl h
    | cons y ys => simp [charListLess]
  | cons x xs ih =>
    cases b with
    | nil => simp [charListLess]
    | cons y ys =>
      by_cases hxy : x.toNat < y.toNat
      · simp [charListLess, hxy]
      · by_cases hyx : y.toNat < x.toNat
        · simp [charListLess, hxy, hyx]
        · have htn : x.toNat = y.toNat := by omega
          have hx : x = y := Char.ext (UInt32.toNat.inj htn)
          have hne : xs ≠ ys := by
            intro hc
            exact h (by rw [hx, hc])
          rcases ih hne with h' | h'
          · refine Or.inl ?_
            simp [charListLess, hxy, hyx, h']
          · refine Or.inr ?_
            simp [charListLess, hxy, hyx, h']

theorem charListLess_asymm {a b : List Char} (h : charListLess a b = true) :
    charListLess b a = false := by
  cases hba : charListLess b a with
  | false => rfl
  | true =>
    have := charListLess_trans h hba
    rw [charListLess_irrefl a] at this
    exact Bool.noConfusion this

theorem stringLess_trans {a b c : String} (h1 : stringLess a b = true)
    (h2 : stringLess b c = true) : stringLess a c = true :=
  charListLess_trans h1 h2

theorem stringLess_asymm {a b : String} (h : stringLess a b = true) :
    stringLess b a = false :=
  charListLess_asymm h

theorem stringLess_total_of_ne {a b : String} (h : a ≠ b) :
    stringLess a b = true ∨ stringLess b a = true :=
  charListLess_total_of_ne (fun hc => h (String.ext hc))

theorem Format.Lawful.equals_false_of_less {V : Type} {format : Format V}
    (hf : format.Lawful) {a b : V} (h : format.valLess a b = true) :
    format.valEquals a b = false := by
  cases he : format.valEquals a b with
  | false => rfl
  | true =>
    have hinc := (hf.equals_iff a b).mp he
    rw [hinc.1] at h
    exact Bool.noConfusion h

theorem fieldCompare_neg1_iff {V : Type} {format : Format V} {na nb : String} :
    pathPartCompare format (.FieldPath na) (.FieldPath nb) = some (-1) ↔
      na ≠ nb ∧ stringLess na nb = true := by
  by_cases he : na = nb
  · simp [pathPartCompare, fieldPathCompare, he]
  · by_cases hl : stringLess na nb = true
    · simp [pathPartCompare, fieldPathCompare, he, hl]
    · simp [pathPartCompare, fieldPathCompare, he, hl]

theorem fieldCompare_zero_iff {V : Type} {format : Format V} {na nb : String} :
    pathPartCompare format (.FieldPath na) (.FieldPath nb) = some 0 ↔ na = nb := by
  by_cases he : na = nb
  · simp [pathPartCompare, fieldPathCompare, he]
  · by_cases hl : stringLess na nb = true
    · simp [pathPartCompare, fieldPathCompare, he, hl]
    · simp [pathPartCompare, fieldPathCompare, he, hl]

theorem fieldCompare_one_iff {V : Type} {format : Format V} {na nb : String} :
    pathPartCompare format (.FieldPath na) (.FieldPath nb) = some 1 ↔
      na ≠ nb ∧ stringLess na nb = false := by
  by_cases he : na = nb
  · simp [pathPartCompare, fieldPathCompare, he]
  · by_cases hl : stringLess na nb = true
    · simp [pathPartCompare, fieldPathCompare, he, hl]
    · simp only [Bool.not_eq_true] at hl
      simp [pathPartCompare, fieldPathCompare, he, hl]

theorem indexCompare_neg1_iff {V : Type} {format : Format V} {ia ib : V} {ka kb : Bool} :
    pathPartCompare format (.IndexPath ia ka) (.IndexPath ib kb) = some (-1) ↔
      (format.valEquals ia ib = true ∧ ka = true ∧ kb = false) ∨
      (format.valEquals ia ib = false ∧ format.valLess ia ib = true) := by
  cases he : format.valEquals ia ib with
  | true =>
    cases ka <;> cases kb <;> simp [pathPartCompare, indexPathCompare, he]
  | false =>
    cases hl : format.valLess ia ib <;>
      simp [pathPartCompare, indexPathCompare, he, hl]

theorem indexCompare_zero_iff {V : Type} {format : Format V} {ia ib : V} {ka kb : Bool} :
    pathPartCompare format (.IndexPath ia ka) (.IndexPath ib kb) = some 0 ↔
      format.valEquals ia ib = true ∧ ka = kb := by
  cases he : format.valEquals ia ib with
  | true =>
    cases ka <;> cases kb <;> simp [pathPartCompare, indexPathCompare, he]
  | false =>
    cases hl : format.valLess ia ib <;>
      simp [pathPartCompare, indexPathCompare, he, hl]

theorem indexCompare_one_iff {V : Type} {format : Format V} {ia ib : V} {ka kb : Bool} :
    pathPartCompare format (.IndexPath ia ka) (.IndexPath ib kb) = some 1 ↔
      (format.valEquals ia ib = true ∧ ka = false ∧ kb = true) ∨
      (format.valEquals ia ib = false ∧ format.valLess ia ib = false) := by
  cases he : format.valEquals ia ib with
  | true =>
    cases ka <;> cases kb <;> simp [pathPartCompare, indexPathCompare, he]
  | false =>
    cases hl : format.valLess ia ib <;>
      simp [pathPartCompare, indexPathCompare, he, hl]

theorem hashCompare_neg1_iff {V : Type} {format : Format V} {ha hb : List Nat}
    {ka kb : Bool} :
    pathPartCompare format (.HashIndexPath ha ka) (.HashIndexPath hb kb) = some (-1) ↔
      bytesCompare ha hb = -1 ∨ (ha = hb ∧ ka = true ∧ kb = false) := by
  rcases bytesCompare_range ha hb with hbc | hbc | hbc
  · simp [pathPartCompare, hashIndexPathCompare, hbc]
  · have hab : ha = hb := (bytesCompare_eq_zero_iff ha hb).mp hbc
    subst hab
    cases ka <;> cases kb <;>
      simp [pathPartCompare, hashIndexPathCompare, bytesCompare_refl]
  · simp [pathPartCompare, hashIndexPathCompare, hbc]
    intro h
    rw [h, bytesCompare_refl] at hbc
    exact absurd hbc (by norm_num)

theorem hashCompare_zero_iff {V : Type} {format : Format V} {ha hb : List Nat}
    {ka kb : Bool} :
    pathPartCompare format (.HashIndexPath ha ka) (.HashIndexPath hb kb) = some 0 ↔
      ha = hb ∧ ka = kb := by
  rcases bytesCompare_range ha hb with hbc | hbc | hbc
  · simp [pathPartCompare, hashIndexPathCompare, hbc]
    intro h
    rw [h, bytesCompare_refl] at hbc
    exact absurd hbc (by norm_num)
  · have hab : ha = hb := (bytesCompare_eq_zero_iff ha hb).mp hbc
    subst hab
    cases ka <;> cases kb <;>
      simp [pathPartCompare, hashIndexPathCompare, bytesCompare_refl]
  · simp [pathPartCompare, hashIndexPathCompare, hbc]
    intro h
    rw [h, bytesCompare_refl] at hbc
    exact absurd hbc (by norm_num)

theorem hashCompare_one_iff {V : Type} {format : Format V} {ha hb : List Nat}
    {ka kb : Bool} :
    pathPartCompare format (.HashIndexPath ha ka) (.HashIndexPath hb kb) = some 1 ↔
      bytesCompare ha hb = 1 ∨ (ha = hb ∧ ka = false ∧ kb = true) := by
  rcases bytesCompare_range ha hb with hbc | hbc | hbc
  · simp [pathPartCompare, hashIndexPathCompare, hbc]
    intro h
    rw [h, bytesCompare_refl] at hbc
    exact absurd hbc (by norm_num)
  · have hab : ha = hb := (bytesCompare_eq_zero_iff ha hb).mp hbc
    subst hab
    cases ka <;> cases kb <;>
      simp [pathPartCompare, hashIndexPathCompare, bytesCompare_refl]
  · simp [pathPartCompare, hashIndexPathCompare, hbc]

/-- Totality of `pathPartCompare` over the closed part type: the result is
always a defined comparison in the set -1, 0, 1 (never the `none` that
models the `panic("unreachable")` fall-throughs). -/
theorem pathPartCompare_total {V : Type} (format : Format V) (a b : PathPart V) :
    ∃ r, pathPartCompare format a b = some r ∧ (r = -1 ∨ r = 0 ∨ r = 1) := by
  cases a with
  | FieldPath na =>
    cases b with
    | FieldPath nb =>
      by_cases he : na = nb
      · exact ⟨0, by simp [pathPartCompare, fieldPathCompare, he]⟩
      · by_cases hl : stringLess na nb = true
        · exact ⟨-1, by simp [pathPartCompare, fieldPathCompare, he, hl]⟩
        · exact ⟨1, by simp [pathPartCompare, fieldPathCompare, he, hl]⟩
    | IndexPath _ _ => exact ⟨-1, by simp [pathPartCompare, fieldPathCompare]⟩
    | HashIndexPath _ _ => exact ⟨-1, by simp [pathPartCompare, fieldPathCompare]⟩
  | IndexPath ia ka =>
    cases b with
    | FieldPath _ => exact ⟨1, by simp [pathPartCompare, indexPathCompare]⟩
    | IndexPath ib kb =>
      cases he : format.valEquals ia ib with
      | true =>
        cases hk : decide (ka = kb) with
        | true =>
          exact ⟨0, by simp_all [pathPartCompare, indexPathCompare]⟩
        | false =>
          cases ka <;> cases kb <;> simp_all [pathPartCompare, indexPathCompare]
      | false =>
        cases hl : format.valLess ia ib with
        | true => exact ⟨-1, by simp [pathPartCompare, indexPathCompare, he, hl]⟩
        | false => exact ⟨1, by simp [pathPartCompare, indexPathCompare, he, hl]⟩
    | HashIndexPath _ _ => exact ⟨-1, by simp [pathPartCompare, indexPathCompare]⟩
  | HashIndexPath ha ka =>
    cases b with
    | FieldPath _ => exact ⟨1, by simp [pathPartCompare, hashIndexPathCompare]⟩
    | IndexPath _ _ => exact ⟨1, by simp [pathPartCompare, hashIndexPathCompare]⟩
    | HashIndexPath hb kb =>
      rcases bytesCompare_range ha hb with hbc | hbc | hbc
      · exact ⟨-1, by simp [pathPartCompare, hashIndexPathCompare, hbc]⟩
      · cases hk : decide (ka = kb) with
        | true =>
          exact ⟨0, by simp_all [pathPartCompare, hashIndexPathCompare]⟩
        | false =>
          cases ka <;> cases kb <;> simp_all [pathPartCompare, hashIndexPathCompare]
      · exact ⟨1, by simp [pathPartCompare, hashIndexPathCompare, hbc]⟩

theorem pathPartCompare_neg {V : Type} {format : Format V} (hf : format.Lawful)
    {a b : PathPart V} {c : Int} (h : pathPartCompare format a b = some c) :
    pathPartCompare format b a = some (-c) := by
  cases a with
  | FieldPath na =>
    cases b with
    | FieldPath nb =>
      obtain ⟨r, hr, hr3⟩ := pathPartCompare_total format
        (.FieldPath na) (.FieldPath (V := V) nb)
      rw [hr] at h
      obtain rfl : r = c := by simpa using h
      rcases hr3 with rfl | rfl | rfl
      · obtain ⟨hne, hsl⟩ := fieldCompare_neg1_iff.mp hr
        have hgoal : pathPartCompare format (.FieldPath nb) (.FieldPath (V := V) na) =
            some 1 := fieldCompare_one_iff.mpr ⟨Ne.symm hne, stringLess_asymm hsl⟩
        simpa using hgoal
      · obtain rfl : na = nb := fieldCompare_zero_iff.mp hr
        simpa using (@fieldCompare_zero_iff V format na na).mpr rfl
      · obtain ⟨hne, hsl⟩ := fieldCompare_one_iff.mp hr
        have hlt : stringLess nb na = true := by
          rcases stringLess_total_of_ne hne with h' | h'
          · rw [h'] at hsl
            exact Bool.noConfusion hsl
          · exact h'
        simpa using fieldCompare_neg1_iff.mpr ⟨Ne.symm hne, hlt⟩
    | IndexPath ib kb =>
      simp only [pathPartCompare, fieldPathCompare, Option.some.injEq] at h
      subst h
      simp [pathPartCompare, indexPathCompare]
    | HashIndexPath hb kb =>
      simp only [pathPartCompare, fieldPathCompare, Option.some.injEq] at h
      subst h
      simp [pathPartCompare, hashIndexPathCompare]
  | IndexPath ia ka =>
    cases b with
    | FieldPath nb =>
      simp only [pathPartCompare, indexPathCompare, Option.some.injEq] at h
      subst h
      simp [pathPartCompare, fieldPathCompare]
    | IndexPath ib kb =>
      obtain ⟨r, hr, hr3⟩ := pathPartCompare_total format
        (.IndexPath ia ka) (.IndexPath ib kb)
      rw [hr] at h
      obtain rfl : r = c := by simpa using h
      have hsymm : format.valEquals ib ia = format.valEquals ia ib :=
        (hf.equals_symm ia ib).symm
      rcases hr3 with rfl | rfl | rfl
      · rcases indexCompare_neg1_iff.mp hr with ⟨he, hka, hkb⟩ | ⟨he, hl⟩
        · have hgoal := (@indexCompare_one_iff V format ib ia kb ka).mpr
            (Or.inl ⟨hsymm.trans he, hkb, hka⟩)
          simpa using hgoal
        · have hgoal := (@indexCompare_one_iff V format ib ia kb ka).mpr
            (Or.inr ⟨hsymm.trans he, hf.less_asymm hl⟩)
          simpa using hgoal
      · obtain ⟨he, hk⟩ := indexCompare_zero_iff.mp hr
        subst hk
        simpa using (@indexCompare_zero_iff V format ib ia ka ka).mpr
          ⟨hsymm.trans he, rfl⟩
      · rcases indexCompare_one_iff.mp hr with ⟨he, hka, hkb⟩ | ⟨he, hl⟩
        · simpa using (@indexCompare_neg1_iff V format ib ia kb ka).mpr
            (Or.inl ⟨hsymm.trans he, hkb, hka⟩)
        · have hlt : format.valLess ib ia = true := by
            rcases hf.not_equals_total he with h' | h'
            · rw [h'] at hl
              exact Bool.noConfusion hl
            · exact h'
          simpa using (@indexCompare_neg1_iff V format ib ia kb ka).mpr
            (Or.inr ⟨hsymm.trans he, hlt⟩)
    | HashIndexPath hb kb =>
      simp only [pathPartCompare, indexPathCompare, Option.some.injEq] at h
      subst h
      simp [pathPartCompare, hashIndexPathCompare]
  | HashIndexPath ha ka =>
    cases b with
    | FieldPath nb =>
      simp only [pathPartCompare, hashIndexPathCompare, Option.some.injEq] at h
      subst h
      simp [pathPartCompare, fieldPathCompare]
    | IndexPath ib kb =>
      simp only [pathPartCompare, hashIndexPathCompare, Option.some.injEq] at h
      subst h
      simp [pathPartCompare, indexPathCompare]
    | HashIndexPath hb kb =>
      obtain ⟨r, hr, hr3⟩ := pathPartCompare_total format
        (.HashIndexPath (V := V) ha ka) (.HashIndexPath hb kb)
      rw [hr] at h
      obtain rfl : r = c := by simpa using h
      rcases hr3 with rfl | rfl | rfl
      · rcases hashCompare_neg1_iff.mp hr with hbc | ⟨heq, hka, hkb⟩
        · have hflip : bytesCompare hb ha = 1 := by
            rw [bytesCompare_neg ha hb, hbc]
            norm_num
          simpa using (@hashCompare_one_iff V format hb ha kb ka).mpr
            (Or.inl hflip)
        · simpa using (@hashCompare_one_iff V format hb ha kb ka).mpr
            (Or.inr ⟨heq.symm, hkb, hka⟩)
      · obtain ⟨heq, hk⟩ := hashCompare_zero_iff.mp hr
        simpa using (@hashCompare_zero_iff V format hb ha kb ka).mpr
          ⟨heq.symm, hk.symm⟩
      · rcases hashCompare_one_iff.mp hr with hbc | ⟨heq, hka, hkb⟩
        · have hflip : bytesCompare hb ha = -1 := by
            rw [bytesCompare_neg ha hb, hbc]
          simpa using (@hashCompare_neg1_iff V format hb ha kb ka).mpr
            (Or.inl hflip)
        · simpa using (@hashCompare_neg1_iff V format hb ha kb ka).mpr
            (Or.inr ⟨heq.symm, hkb, hka⟩)

theorem pathPartCompare_zero_congr_left {V : Type} {format : Format V}
    (hf : format.Lawful) {a b : PathPart V}
    (h : pathPartCompare format a b = some 0) (x : PathPart V) :
    pathPartCompare format a x = pathPartCompare format b x := by
  cases a with
  | FieldPath na =>
    cases b with
    | FieldPath nb =>
      obtain rfl : na = nb := fieldCompare_zero_iff.mp h
      rfl
    | IndexPath _ _ => simp [pathPartCompare, fieldPathCompare] at h
    | HashIndexPath _ _ => simp [pathPartCompare, fieldPathCompare] at h
  | IndexPath ia ka =>
    cases b with
    | FieldPath _ => simp [pathPartCompare, indexPathCompare] at h
    | IndexPath ib kb =>
      obtain ⟨he, hk⟩ := indexCompare_zero_iff.mp h
      subst hk
      cases x with
      | FieldPath _ => rfl
      | HashIndexPath _ _ => rfl
      | IndexPath ix kx =>
        have heq2 : format.valEquals ia ix = format.valEquals ib ix := by
          cases hx : format.valEquals ib ix with
          | true => exact hf.equals_trans he hx
          | false =>
            cases hy : format.valEquals ia ix with
            | false => rfl
            | true =>
              have hba : format.valEquals ib ia = true := by
                rw [hf.equals_symm ib ia]
                exact he
              rw [hf.equals_trans hba hy] at hx
              exact Bool.noConfusion hx
        have hless2 : format.valLess ia ix = format.valLess ib ix := by
          cases hx : format.valLess ib ix with
          | true => exact hf.equals_less he hx
          | false =>
            cases hy : format.valLess ia ix with
            | false => rfl
            | true =>
              have hba : format.valEquals ib ia = true := by
                rw [hf.equals_symm ib ia]
                exact he
              rw [hf.equals_less hba hy] at hx
              exact Bool.noConfusion hx
        simp only [pathPartCompare, indexPathCompare, heq2, hless2]
    | HashIndexPath _ _ => simp [pathPartCompare, indexPathCompare] at h
  | HashIndexPath ha ka =>
    cases b with
    | FieldPath _ => simp [pathPartCompare, hashIndexPathCompare] at h
    | IndexPath _ _ => simp [pathPartCompare, hashIndexPathCompare] at h
    | HashIndexPath hb kb =>
      obtain ⟨heq, hk⟩ := hashCompare_zero_iff.mp h
      subst heq
      subst hk
      rfl

theorem pathPartCompare_zero_congr_right {V : Type} {format : Format V}
    (hf : format.Lawful) {a b : PathPart V}
    (h : pathPartCompare format a b = some 0) (x : PathPart V) :
    pathPartCompare format x a = pathPartCompare format x b := by
  obtain ⟨r, hr, -⟩ := pathPartCompare_total format x a
  have h1 : pathPartCompare format a x = some (-r) := pathPartCompare_neg hf hr
  have h2 : pathPartCompare format b x = some (-r) := by
    rw [← pathPartCompare_zero_congr_left hf h x]
    exact h1
  have h3 := pathPartCompare_neg hf h2
  rw [hr, h3]
  simp

theorem pathPartCompare_neg1_trans {V : Type} {format : Format V} (hf : format.Lawful)
    {a b c : PathPart V} (h1 : pathPartCompare format a b = some (-1))
    (h2 : pathPartCompare format b c = some (-1)) :
    pathPartCompare format a c = some (-1) := by
  cases a with
  | FieldPath na =>
    cases c with
    | IndexPath _ _ => simp [pathPartCompare, fieldPathCompare]
    | HashIndexPath _ _ => simp [pathPartCompare, fieldPathCompare]
    | FieldPath nc =>
      cases b with
      | IndexPath _ _ => simp [pathPartCompare, indexPathCompare] at h2
      | HashIndexPath _ _ => simp [pathPartCompare, hashIndexPathCompare] at h2
      | FieldPath nb =>
        obtain ⟨hne1, hl1⟩ := fieldCompare_neg1_iff.mp h1
        obtain ⟨hne2, hl2⟩ := fieldCompare_neg1_iff.mp h2
        refine fieldCompare_neg1_iff.mpr ⟨?_, stringLess_trans hl1 hl2⟩
        intro hac
        subst hac
        rw [stringLess_asymm hl1] at hl2
        exact Bool.noConfusion hl2
  | IndexPath ia ka =>
    cases c with
    | FieldPath _ =>
      cases b with
      | FieldPath _ => simp [pathPartCompare, indexPathCompare] at h1
      | IndexPath _ _ => simp [pathPartCompare, indexPathCompare] at h2
      | HashIndexPath _ _ => simp [pathPartCompare, hashIndexPathCompare] at h2
    | HashIndexPath _ _ => simp [pathPartCompare, indexPathCompare]
    | IndexPath ic kc =>
      cases b with
      | FieldPath _ => simp [pathPartCompare, indexPathCompare] at h1
      | HashIndexPath _ _ => simp [pathPartCompare, hashIndexPathCompare] at h2
      | IndexPath ib kb =>
        rcases indexCompare_neg1_iff.mp h1 with ⟨he1, hka, hkb⟩ | ⟨he1, hl1⟩ <;>
          rcases indexCompare_neg1_iff.mp h2 with ⟨he2, hkb2, hkc⟩ | ⟨he2, hl2⟩
        · rw [hkb] at hkb2
          exact Bool.noConfusion hkb2
        · have hlac : format.valLess ia ic = true := hf.equals_less he1 hl2
          exact indexCompare_neg1_iff.mpr
            (Or.inr ⟨hf.equals_false_of_less hlac, hlac⟩)
        · have hlac : format.valLess ia ic = true := hf.less_equals hl1 he2
          exact indexCompare_neg1_iff.mpr
            (Or.inr ⟨hf.equals_false_of_less hlac, hlac⟩)
        · have hlac := hf.less_trans ia ib ic hl1 hl2
          exact indexCompare_neg1_iff.mpr
            (Or.inr ⟨hf.equals_false_of_less hlac, hlac⟩)
  | HashIndexPath hha kha =>
    cases c with
    | FieldPath _ =>
      cases b with
      | FieldPath _ => simp [pathPartCompare, hashIndexPathCompare] at h1
      | IndexPath _ _ => simp [pathPartCompare, hashIndexPathCompare] at h1
      | HashIndexPath _ _ => simp [pathPartCompare, hashIndexPathCompare] at h2
    | IndexPath _ _ =>
      cases b with
      | FieldPath _ => simp [pathPartCompare, hashIndexPathCompare] at h1
      | IndexPath _ _ => simp [pathPartCompare, hashIndexPathCompare] at h1
      | HashIndexPath _ _ => simp [pathPartCompare, hashIndexPathCompare] at h2
    | HashIndexPath hhc khc =>
      cases b with
      | FieldPath _ => simp [pathPartCompare, hashIndexPathCompare] at h1
      | IndexPath _ _ => simp [pathPartCompare, hashIndexPathCompare] at h1
      | HashIndexPath hhb khb =>
        rcases hashCompare_neg1_iff.mp h1 with hbc1 | ⟨heq1, hka, hkb⟩ <;>
          rcases hashCompare_neg1_iff.mp h2 with hbc2 | ⟨heq2, hkb2, hkc⟩
        · exact hashCompare_neg1_iff.mpr (Or.inl (bytesCompare_trans hbc1 hbc2))
        · subst heq2
          exact hashCompare_neg1_iff.mpr (Or.inl hbc1)
        · subst heq1
          exact hashCompare_neg1_iff.mpr (Or.inl hbc2)
        · rw [hkb] at hkb2
          exact Bool.noConfusion hkb2

theorem pathIsLess_total {V : Type} (format : Format V) (p q : Path V) :
    ∃ b, pathIsLess format p q = some b := by
  induction p generalizing q with
  | nil => exact ⟨decide (q.length > 0), rfl⟩
  | cons x xs ih =>
    cases q with
    | nil => exact ⟨false, rfl⟩
    | cons y ys =>
      obtain ⟨r, hr, hr3⟩ := pathPartCompare_total format x y
      rcases hr3 with rfl | rfl | rfl
      · exact ⟨true, by simp [pathIsLess, hr]⟩
      · obtain ⟨b, hb⟩ := ih ys
        exact ⟨b, by simp [pathIsLess, hr, hb]⟩
      · exact ⟨false, by simp [pathIsLess, hr]⟩

theorem pathIsLess_asymm {V : Type} {format : Format V} (hf : format.Lawful)
    {p q : Path V} (h : pathIsLess format p q = some true) :
    pathIsLess format q p = some false := by
  induction p generalizing q with
  | nil =>
    cases q with
    | nil => simp [pathIsLess] at h
    | cons y ys => rfl
  | cons x xs ih =>
    cases q with
    | nil => simp [pathIsLess] at h
    | cons y ys =>
      obtain ⟨r, hr, hr3⟩ := pathPartCompare_total format x y
      have hneg := pathPartCompare_neg hf hr
      rcases hr3 with rfl | rfl | rfl
      · have hneg' : pathPartCompare format y x = some 1 := by simpa using hneg
        simp [pathIsLess, hneg']
      · have hneg' : pathPartCompare format y x = some 0 := by simpa using hneg
        simp only [pathIsLess, hr] at h
        norm_num at h
        simp only [pathIsLess, hneg']
        norm_num
        exact ih h
      · simp only [pathIsLess, hr] at h
        norm_num at h

theorem pathIsLess_trans {V : Type} {format : Format V} (hf : format.Lawful)
    {p q r : Path V} (h1 : pathIsLess format p q = some true)
    (h2 : pathIsLess format q r = some true) :
    pathIsLess format p r = some true := by
  induction p generalizing q r with
  | nil =>
    cases r with
    | cons z zs => simp [pathIsLess]
    | nil =>
      cases q with
      | nil => simp [pathIsLess] at h1
      | cons y ys => simp [pathIsLess] at h2
  | cons x xs ih =>
    cases q with
    | nil => simp [pathIsLess] at h1
    | cons y ys =>
      cases r with
      | nil => simp [pathIsLess] at h2
      | cons z zs =>
        obtain ⟨r1, hr1, hr13⟩ := pathPartCompare_total format x y
        obtain ⟨r2, hr2, hr23⟩ := pathPartCompare_total format y z
        rcases hr13 with rfl | rfl | rfl
        · rcases hr23 with rfl | rfl | rfl
          · have hxz := pathPartCompare_neg1_trans hf hr1 hr2
            simp [pathIsLess, hxz]
          · have heq := pathPartCompare_zero_congr_right hf hr2 x
            have hxz : pathPartCompare format x z = some (-1) := by
              rw [← heq]
              exact hr1
            simp [pathIsLess, hxz]
          · simp only [pathIsLess, hr2] at h2
            norm_num at h2
        · rcases hr23 with rfl | rfl | rfl
          · have heq := pathPartCompare_zero_congr_left hf hr1 z
            have hxz : pathPartCompare format x z = some (-1) := by
              rw [heq]
              exact hr2
            simp [pathIsLess, hxz]
          · have heq := pathPartCompare_zero_congr_left hf hr1 z
            have hxz : pathPartCompare format x z = some 0 := by
              rw [heq]
              exact hr2
            simp only [pathIsLess, hr1] at h1
            simp only [pathIsLess, hr2] at h2
            norm_num at h1 h2
            simp only [pathIsLess, hxz]
            norm_num
            exact ih h1 h2
          · simp only [pathIsLess, hr2] at h2
            norm_num at h2
        · simp only [pathIsLess, hr1] at h1
          norm_num at h1

/-- Claim C2: for parts of different variants, `pathPartCompare` orders by
variant as FieldPath before IndexPath before HashIndexPath, returning -1
when the first argument's variant precedes the second's and 1 when it
follows it, for all field names, index values, hashes and IntoKey flags. -/
theorem pathPartCompare_cross_variant {V : Type} (format : Format V)
    (n : String) (i : V) (k : Bool) (hsh : List Nat) (k2 : Bool) :
    pathPartCompare format (.FieldPath n) (.IndexPath i k) = some (-1) ∧
    pathPartCompare format (.FieldPath n) (.HashIndexPath hsh k2) = some (-1) ∧
    pathPartCompare format (.IndexPath i k) (.HashIndexPath hsh k2) = some (-1) ∧
    pathPartCompare format (.IndexPath i k) (.FieldPath n) = some 1 ∧
    pathPartCompare format (.HashIndexPath hsh k2) (.FieldPath n) = some 1 ∧
    pathPartCompare format (.HashIndexPath hsh k2) (.IndexPath i k) = some 1 :=
  ⟨rfl, rfl, rfl, rfl, rfl, rfl⟩

/-- Claim C9: `pathPartCompare` is total over the three part variants: it
always returns a defined result in the set -1, 0, 1, and none of the
`panic("unreachable")` branches (modelled by `none`, and by the closedness
of the `PathPart` sum for the outer switches) is reachable. -/
theorem pathPartCompare_no_panic {V : Type} (format : Format V) (pp pp2 : PathPart V) :
    ∃ r, pathPartCompare format pp pp2 = some r ∧ (r = -1 ∨ r = 0 ∨ r = 1) :=
  pathPartCompare_total format pp pp2

/-- Claim C3: at equal indices (under the format) or equal hash bytes, the
part with IntoKey=true sorts strictly before IntoKey=false, and parts with
the same IntoKey compare equal (result 0). -/
theorem intoKey_tiebreak {V : Type} (format : Format V) (i1 i2 : V)
    (hi : format.valEquals i1 i2 = true) (ha hb : List Nat) (hhash : ha = hb) :
    pathPartCompare format (.IndexPath i1 true) (.IndexPath i2 false) = some (-1) ∧
    pathPartCompare format (.IndexPath i1 false) (.IndexPath i2 true) = some 1 ∧
    (∀ k, pathPartCompare format (.IndexPath i1 k) (.IndexPath i2 k) = some 0) ∧
    pathPartCompare format (.HashIndexPath ha true) (.HashIndexPath hb false) = some (-1) ∧
    pathPartCompare format (.HashIndexPath ha false) (.HashIndexPath hb true) = some 1 ∧
    (∀ k, pathPartCompare format (.HashIndexPath ha k) (.HashIndexPath hb k) = some 0) := by
  subst hhash
  refine ⟨indexCompare_neg1_iff.mpr (Or.inl ⟨hi, rfl, rfl⟩),
          indexCompare_one_iff.mpr (Or.inl ⟨hi, rfl, rfl⟩),
          fun k => indexCompare_zero_iff.mpr ⟨hi, rfl⟩,
          hashCompare_neg1_iff.mpr (Or.inr ⟨rfl, rfl, rfl⟩),
          hashCompare_one_iff.mpr (Or.inr ⟨rfl, rfl, rfl⟩),
          fun k => hashCompare_zero_iff.mpr ⟨rfl, rfl⟩⟩

theorem intoKey_tiebreak_witness :
    natFormat.valEquals 5 5 = true ∧
    pathPartCompare natFormat (.IndexPath 5 true) (.IndexPath 5 false) = some (-1) ∧
    pathPartCompare natFormat (.HashIndexPath [1, 2] true) (.HashIndexPath [1, 2] false) =
      some (-1) :=
  ⟨by decide,
   (intoKey_tiebreak natFormat 5 5 (by decide) [1, 2] [1, 2] rfl).1,
   (intoKey_tiebreak natFormat 5 5 (by decide) [1, 2] [1, 2] rfl).2.2.2.1⟩

/-- Claim C5: `pathPartCompare` under a lawful format is a strict weak
order: -1 is transitive, never do both directions return -1, and the
comparison anticommutes (`compare b a` is the negation of `compare a b`);
transitivity and asymmetry also hold for `pathIsLess`. -/
theorem pathPartCompare_strict_weak_order {V : Type} (format : Format V)
    (hf : format.Lawful) :
    (∀ a b c : PathPart V, pathPartCompare format a b = some (-1) →
      pathPartCompare format b c = some (-1) →
      pathPartCompare format a c = some (-1)) ∧
    (∀ a b : PathPart V, ¬(pathPartCompare format a b = some (-1) ∧
      pathPartCompare format b a = some (-1))) ∧
    (∀ (a b : PathPart V) (c : Int), pathPartCompare format a b = some c →
      pathPartCompare format b a = some (-c)) ∧
    (∀ p q r : Path V, pathIsLess format p q = some true →
      pathIsLess format q r = some true → pathIsLess format p r = some true) ∧
    (∀ p q : Path V, ¬(pathIsLess format p q = some true ∧
      pathIsLess format q p = some true)) := by
  refine ⟨fun a b c => pathPartCompare_neg1_trans hf, ?_,
          fun a b c h => pathPartCompare_neg hf h,
          fun p q r => pathIsLess_trans hf, ?_⟩
  · rintro a b ⟨h1, h2⟩
    have h3 := pathPartCompare_neg hf h1
    rw [h2] at h3
    norm_num at h3
  · rintro p q ⟨h1, h2⟩
    have h3 := pathIsLess_asymm hf h1
    rw [h2] at h3
    simp at h3

theorem pathPartCompare_strict_weak_order_witness :
    pathPartCompare natFormat (.IndexPath 1 false) (.IndexPath 3 true) = some (-1) :=
  (pathPartCompare_strict_weak_order natFormat natFormat_lawful).1
    (.IndexPath 1 false) (.IndexPath 2 true) (.IndexPath 3 true)
    (by decide) (by decide)

/-- Claim C4: if `p1` is a strict prefix of `p2` up to part comparison
(every part of `p1` compares 0 against the corresponding part of `p2`,
and `p2` is longer), then `p1` sorts strictly before `p2`; and in general
the comparison is decided by the first elementwise-unequal part from the
root. -/
theorem pathIsLess_prefix_and_first_diff {V : Type} (format : Format V)
    (hf : format.Lawful) :
    (∀ p1 mid sfx : Path V,
      List.Forall₂ (fun a b => pathPartCompare format a b = some 0) p1 mid →
      sfx ≠ [] →
      pathIsLess format p1 (mid ++ sfx) = some true ∧
      pathIsLess format (mid ++ sfx) p1 = some false) ∧
    (∀ (u1 u2 : Path V) (a b : PathPart V) (r1 r2 : Path V) (c : Int),
      List.Forall₂ (fun a b => pathPartCompare format a b = some 0) u1 u2 →
      pathPartCompare format a b = some c → c ≠ 0 →
      pathIsLess format (u1 ++ a :: r1) (u2 ++ b :: r2) = some (decide (c = -1))) := by
  constructor
  · intro p1 mid sfx hfa hsfx
    induction hfa with
    | nil =>
      cases sfx with
      | nil => exact absurd rfl hsfx
      | cons s ss => exact ⟨by simp [pathIsLess], rfl⟩
    | @cons a b as bs hab hrest ih =>
      obtain ⟨ih1, ih2⟩ := ih
      have hba : pathPartCompare format b a = some 0 := by
        simpa using pathPartCompare_neg hf hab
      constructor
      · simp only [List.cons_append, pathIsLess, hab]
        norm_num
        exact ih1
      · simp only [List.cons_append, pathIsLess, hba]
        norm_num
        exact ih2
  · intro u1 u2 a b r1 r2 c hfa hab hc
    induction hfa with
    | nil =>
      obtain ⟨r, hr, hr3⟩ := pathPartCompare_total format a b
      rw [hr] at hab
      obtain rfl : r = c := by simpa using hab
      rcases hr3 with rfl | rfl | rfl
      · simp [pathIsLess, hr]
      · exact absurd rfl hc
      · simp [pathIsLess, hr]
    | @cons x y xs ys hxy hrest ih =>
      simp only [List.cons_append, pathIsLess, hxy]
      norm_num
      exact ih

theorem pathIsLess_prefix_and_first_diff_witness :
    pathIsLess natFormat [.FieldPath "a"] [.FieldPath "a", .IndexPath 0 false] =
      some true ∧
    pathIsLess natFormat [.FieldPath "a", .IndexPath 0 false] [.FieldPath "a"] =
      some false :=
  (pathIsLess_prefix_and_first_diff natFormat natFormat_lawful).1
    [.FieldPath "a"] [.FieldPath "a"] [.IndexPath 0 false]
    (List.Forall₂.cons (by decide) List.Forall₂.nil) (by decide)

/-- Claim C1: among differences whose paths are exactly equal, the
`PatchSort` comparator orders Removed before Modified before Added,
regardless of position in the patch. -/
theorem patchSort_less_changeType_order {V : Type} [DecidableEq V] (ps : PatchSort V)
    (i j : Nat) (hi : i < ps.patch.length) (hj : j < ps.patch.length)
    (hpath : (ps.patch.get ⟨i, hi⟩).Path = (ps.patch.get ⟨j, hj⟩).Path)
    (hct : ((ps.patch.get ⟨i, hi⟩).ChangeType = .DiffChangeRemoved ∧
            (ps.patch.get ⟨j, hj⟩).ChangeType = .DiffChangeModified) ∨
           ((ps.patch.get ⟨i, hi⟩).ChangeType = .DiffChangeModified ∧
            (ps.patch.get ⟨j, hj⟩).ChangeType = .DiffChangeAdded) ∨
           ((ps.patch.get ⟨i, hi⟩).ChangeType = .DiffChangeRemoved ∧
            (ps.patch.get ⟨j, hj⟩).ChangeType = .DiffChangeAdded)) :
    ps.Less i j hi hj = some true ∧ ps.Less j i hj hi = some false := by
  obtain ⟨d1, hd1⟩ : ∃ d, ps.patch.get ⟨i, hi⟩ = d := ⟨_, rfl⟩
  obtain ⟨d2, hd2⟩ : ∃ d, ps.patch.get ⟨j, hj⟩ = d := ⟨_, rfl⟩
  rw [hd1, hd2] at hpath
  rw [hd1, hd2] at hct
  unfold PatchSort.Less
  rw [hd1, hd2]
  constructor
  · rcases hct with ⟨hci, hcj⟩ | ⟨hci, hcj⟩ | ⟨hci, hcj⟩ <;>
      simp [diffLess, pathEquals, hpath, hci, hcj, vals]
  · rcases hct with ⟨hci, hcj⟩ | ⟨hci, hcj⟩ | ⟨hci, hcj⟩ <;>
      simp [diffLess, pathEquals, hpath, hci, hcj, vals]

/-- A concrete two-element patch over `natFormat` exercising the
change-type ordering. -/
def patchW : PatchSort Nat :=
  ⟨[⟨[.FieldPath "x"], .DiffChangeModified, none, none⟩,
    ⟨[.FieldPath "x"], .DiffChangeAdded, none, none⟩], natFormat⟩

theorem patchSort_less_changeType_order_witness :
    patchW.Less 0 1 (by decide) (by decide) = some true ∧
    patchW.Less 1 0 (by decide) (by decide) = some false :=
  patchSort_less_changeType_order patchW 0 1 (by decide) (by decide) rfl
    (Or.inr (Or.inl ⟨rfl, rfl⟩))

end DoltDiff

namespace DoltActions

/-- Modelled from the spec: the per-table `Operation` tag of `MergeStats`
(the `merge` package enum is outside the reviewed slice; `MergeCommits`
itself constructs only `TableRemoved`). -/
inductive MergeOperation where
  | TableModified
  | TableRemoved
  | TableAdded
  | TableUnchanged
deriving DecidableEq

/-- Modelled from the spec: per-table merge statistics (counts of
added/modified/removed rows, an operation tag and a conflict count);
`MergeStats{Operation: TableRemoved}` zero-values the counts. -/
structure MergeStats where
  Operation : MergeOperation
  Adds : Nat := 0
  Modifications : Nat := 0
  Deletes : Nat := 0
  Conflicts : Nat := 0
deriving DecidableEq

/-- Modelled from the spec: `RootValue` (external, consumed not owned) is
an immutable mapping from table name to table value; `T` is the abstract
table type. -/
def RootValue (T : Type) := String → Option T

/-- Modelled from the spec: `PutTable` returns a new root with the named
table bound, never mutating the argument. -/
def RootValue.PutTable {T : Type} (root : RootValue T) (name : String) (tbl : T) :
    RootValue T :=
  fun n => if n = name then some tbl else root n

/-- Modelled from the spec: `HasTable` reports whether the root binds the
named table (its error return is not modelled; the spec presents the root
as a plain mapping). -/
def RootValue.HasTable {T : Type} (root : RootValue T) (name : String) : Bool :=
  (root name).isSome

/-- Modelled from the spec: `RemoveTables` returns a new root without the
named table (`MergeCommits` always passes exactly one name). -/
def RootValue.RemoveTables {T : Type} (root : RootValue T) (name : String) :
    RootValue T :=
  fun n => if n = name then none else root n

/-- The externally observable calls `MergeCommits` makes while merging. -/
inductive MergeEvent where
  | mergeTableCall (name : String)
  | putTableCall (name : String)
  | removeTablesCall (name : String)
deriving DecidableEq

/-- The outcomes of the external operations `MergeCommits` consumes:
`merge.NewMerger`, the two `GetRootValue` calls, `doltdb.UnionTableNames`
and `merger.MergeTable` (which yields a merged table or `nil` plus stats,
or an error).  `E` is the abstract error type. -/
structure MergeEnv (T E : Type) where
  newMergerErr : Option E
  root1 : Except E (RootValue T)
  root2Err : Option E
  unionNames : Except E (List String)
  mergeTable : String → Except E (Option T × MergeStats)

/-- The Go return triple `(*RootValue, map[string]*MergeStats, error)`,
with `nil` pointers as `none`, or the `panic("?")` of the branch where a
table neither merged nor exists in the accumulated root. -/
inductive MergeResult (T E : Type) where
  | ret (root : Option (RootValue T))
      (tblToStats : Option (String → Option MergeStats)) (err : Option E)
  | panicked

/-- The per-table loop of `MergeCommits` (lines 57-85 of merge.go), paired
with the trace of `MergeTable` / `PutTable` / `RemoveTables` calls it
performs in order. -/
def mergeTableLoop {T E : Type} (env : MergeEnv T E) :
    List String → RootValue T → (String → Option MergeStats) →
    List MergeEvent × MergeResult T E
  | [], root, tblToStats => ([], .ret (some root) (some tblToStats) none)
  | tblName :: rest, root, tblToStats =>
    match env.mergeTable tblName with
    | .error e => ([.mergeTableCall tblName], .ret none none (some e))
    | .ok (some mergedTable, stats) =>
      let next := mergeTableLoop env rest (root.PutTable tblName mergedTable)
        (fun n => if n = tblName then some stats else tblToStats n)
      (.mergeTableCall tblName :: .putTableCall tblName :: next.1, next.2)
    | .ok (none, _) =>
      if root.HasTable tblName then
        let next := mergeTableLoop env rest (root.RemoveTables tblName)
          (fun n => if n = tblName then some ⟨.TableRemoved, 0, 0, 0, 0⟩
                    else tblToStats n)
        (.mergeTableCall tblName :: .removeTablesCall tblName :: next.1, next.2)
      else
        ([.mergeTableCall tblName], .panicked)

/-- `MergeCommits(ctx, ddb, cm1, cm2)`: resolve the merger, the two roots
and the union of table names (each may fail, returning `nil, nil, err`),
then run the per-table loop starting from cm1's root and an empty stats
map. -/
def MergeCommits {T E : Type} (env : MergeEnv T E) :
    List MergeEvent × MergeResult T E :=
  match env.newMergerErr with
  | some e => ([], .ret none none (some e))
  | none =>
    match env.root1 with
    | .error e => ([], .ret none none (some e))
    | .ok root =>
      match env.root2Err with
      | some e => ([], .ret none none (some e))
      | none =>
        match env.unionNames with
        | .error e => ([], .ret none none (some e))
        | .ok tblNames => mergeTableLoop env tblNames root (fun _ => none)

theorem mergeTableLoop_err_nil {T E : Type} (env : MergeEnv T E) :
    ∀ (names : List String) (root : RootValue T)
      (stats : String → Option MergeStats) (r : Option (RootValue T))
      (s : Option (String → Option MergeStats)) (e : E),
    (mergeTableLoop env names root stats).2 = .ret r s (some e) →
    r = none ∧ s = none := by
  intro names
  induction names with
  | nil =>
    intro root stats r s e h
    simp [mergeTableLoop] at h
  | cons t rest ih =>
    intro root stats r s e h
    simp only [mergeTableLoop] at h
    cases henv : env.mergeTable t with
    | error e2 =>
      rw [henv] at h
      simp only [MergeResult.ret.injEq] at h
      exact ⟨h.1.symm, h.2.1.symm⟩
    | ok pr =>
      obtain ⟨mt, st⟩ := pr
      rw [henv] at h
      cases mt with
      | some tblVal =>
        exact ih _ _ r s e h
      | none =>
        by_cases hht : root.HasTable t = true
        · rw [if_pos hht] at h
          exact ih _ _ r s e h
        · rw [if_neg hht] at h
          exact absurd h (by simp)

/-- Claim C10: whenever `MergeCommits` returns a non-nil error, the
returned root and stats map are both nil: a caller never sees a partial
root or partial statistics together with an error. -/
theorem mergeCommits_err_atomic {T E : Type} (env : MergeEnv T E)
    (r : Option (RootValue T)) (s : Option (String → Option MergeStats)) (e : E)
    (h : (MergeCommits env).2 = .ret r s (some e)) : r = none ∧ s = none := by
  unfold MergeCommits at h
  cases hnm : env.newMergerErr with
  | some e1 =>
    rw [hnm] at h
    simp only [MergeResult.ret.injEq] at h
    exact ⟨h.1.symm, h.2.1.symm⟩
  | none =>
    rw [hnm] at h
    cases hr1 : env.root1 with
    | error e1 =>
      rw [hr1] at h
      simp only [MergeResult.ret.injEq] at h
      exact ⟨h.1.symm, h.2.1.symm⟩
    | ok root =>
      rw [hr1] at h
      cases hr2 : env.root2Err with
      | some e1 =>
        rw [hr2] at h
        simp only [MergeResult.ret.injEq] at h
        exact ⟨h.1.symm, h.2.1.symm⟩
      | none =>
        rw [hr2] at h
        cases hu : env.unionNames with
        | error e1 =>
          rw [hu] at h
          simp only [MergeResult.ret.injEq] at h
          exact ⟨h.1.symm, h.2.1.symm⟩
        | ok names =>
          rw [hu] at h
          exact mergeTableLoop_err_nil env names root (fun _ => none) r s e h

/-- A concrete error value for the error-path witness. -/
def envErr : MergeEnv Nat Unit where
  newMergerErr := none
  root1 := .ok (fun _ => none)
  root2Err := none
  unionNames := .ok ["a"]
  mergeTable := fun _ => .error ()

theorem mergeCommits_err_atomic_witness :
    (MergeCommits envErr).2 = .ret none none (some ()) ∧
    (none : Option (RootValue Nat)) = none ∧
    (none : Option (String → Option MergeStats)) = none :=
  ⟨rfl, (mergeCommits_err_atomic envErr none none () rfl).1,
    (mergeCommits_err_atomic envErr none none () rfl).2⟩

/-- A two-table environment in which table "a" merges successfully and
table "b" then fails to merge. -/
def envC7 : MergeEnv Nat Unit where
  newMergerErr := none
  root1 := .ok (fun n => if n = "a" then some 0 else none)
  root2Err := none
  unionNames := .ok ["a", "b"]
  mergeTable := fun n =>
    if n = "a" then .ok (some 1, ⟨.TableModified, 0, 0, 0, 0⟩) else .error ()

/-- Claim C7 is violated by the code: with tables "a" and "b" in the
union, `MergeCommits` calls `PutTable` for "a" before `MergeTable` ever
runs (and fails) for "b", so table application is interleaved with
validation rather than deferred until every table has validated, contrary
to the comment above the loop. -/
theorem mergeCommits_put_before_full_validation :
    (MergeCommits envC7).1 =
      [.mergeTableCall "a", .putTableCall "a", .mergeTableCall "b"] ∧
    (MergeCommits envC7).2 = .ret none none (some ()) :=
  ⟨rfl, rfl⟩

theorem mergeTableLoop_preserve {T E : Type} (env : MergeEnv T E) {tbl : String} :
    ∀ (names : List String) (root : RootValue T)
      (stats : String → Option MergeStats) (rootF : RootValue T)
      (statsF : String → Option MergeStats),
    tbl ∉ names →
    (mergeTableLoop env names root stats).2 = .ret (some rootF) (some statsF) none →
    rootF tbl = root tbl ∧ statsF tbl = stats tbl := by
  intro names
  induction names with
  | nil =>
    intro root stats rootF statsF hmem h
    simp only [mergeTableLoop, MergeResult.ret.injEq, Option.some.injEq,
      and_true] at h
    obtain ⟨h1, h2⟩ := h
    subst h1
    subst h2
    exact ⟨rfl, rfl⟩
  | cons t rest ih =>
    intro root stats rootF statsF hmem h
    have hne : tbl ≠ t := fun hc => hmem (hc ▸ List.mem_cons_self t rest)
    have hrest : tbl ∉ rest := fun hc => hmem (List.mem_cons_of_mem t hc)
    simp only [mergeTableLoop] at h
    cases henv : env.mergeTable t with
    | error e2 =>
      rw [henv] at h
      simp at h
    | ok pr =>
      obtain ⟨mt, st⟩ := pr
      rw [henv] at h
      cases mt with
      | some tblVal =>
        obtain ⟨h1, h2⟩ := ih _ _ _ _ hrest h
        constructor
        · rw [h1]
          simp [RootValue.PutTable, hne]
        · rw [h2]
          simp [hne]
      | none =>
        by_cases hht : root.HasTable t = true
        · rw [if_pos hht] at h
          obtain ⟨h1, h2⟩ := ih _ _ _ _ hrest h
          constructor
          · rw [h1]
            simp [RootValue.RemoveTables, hne]
          · rw [h2]
            simp [hne]
        · rw [if_neg hht] at h
          exact absurd h (by simp)

theorem mergeTableLoop_removed {T E : Type} (env : MergeEnv T E) {tbl : String}
    {st : MergeStats} :
    ∀ (names : List String) (root : RootValue T)
      (stats : String → Option MergeStats) (rootF : RootValue T)
      (statsF : String → Option MergeStats),
    tbl ∈ names → names.Nodup →
    env.mergeTable tbl = .ok (none, st) →
    root.HasTable tbl = true →
    (mergeTableLoop env names root stats).2 = .ret (some rootF) (some statsF) none →
    statsF tbl = some ⟨.TableRemoved, 0, 0, 0, 0⟩ ∧ rootF tbl = none := by
  intro names
  induction names with
  | nil =>
    intro root stats rootF statsF hmem
    exact absurd hmem (List.not_mem_nil tbl)
  | cons t rest ih =>
    intro root stats rootF statsF hmem hnd hmt hht h
    simp only [mergeTableLoop] at h
    by_cases heq : t = tbl
    · subst heq
      rw [hmt, if_pos hht] at h
      have hrest : t ∉ rest := (List.nodup_cons.mp hnd).1
      obtain ⟨h1, h2⟩ := mergeTableLoop_preserve env rest _ _ _ _ hrest h
      constructor
      · rw [h2]
        simp
      · rw [h1]
        simp [RootValue.RemoveTables]
    · have hne : tbl ≠ t := fun hc => heq hc.symm
      have hmem' : tbl ∈ rest := by
        rcases List.mem_cons.mp hmem with h' | h'
        · exact absurd h'.symm heq
        · exact h'
      have hnd' := (List.nodup_cons.mp hnd).2
      cases henv : env.mergeTable t with
      | error e2 =>
        rw [henv] at h
        simp at h
      | ok pr =>
        obtain ⟨mt, st2⟩ := pr
        rw [henv] at h
        cases mt with
        | some tblVal =>
          refine ih _ _ _ _ hmem' hnd' hmt ?_ h
          simpa [RootValue.HasTable, RootValue.PutTable, hne] using hht
        | none =>
          by_cases hht2 : root.HasTable t = true
          · rw [if_pos hht2] at h
            refine ih _ _ _ _ hmem' hnd' hmt ?_ h
            simpa [RootValue.HasTable, RootValue.RemoveTables, hne] using hht
          · rw [if_neg hht2] at h
            simp at h

/-- Claim C8: for every table name in the union for which `MergeTable`
returns no merged table while the table is present in cm1's root, a
successful `MergeCommits` records a `TableRemoved` stats entry for it and
returns a merged root from which the table has been removed. -/
theorem mergeCommits_table_removed {T E : Type} (env : MergeEnv T E)
    (root0 : RootValue T) (names : List String) (tbl : String) (st : MergeStats)
    (rootF : RootValue T) (statsF : String → Option MergeStats)
    (hm : env.newMergerErr = none) (hr1 : env.root1 = .ok root0)
    (hr2 : env.root2Err = none) (hu : env.unionNames = .ok names)
    (hnd : names.Nodup) (hmem : tbl ∈ names)
    (hmt : env.mergeTable tbl = .ok (none, st))
    (hpresent : root0.HasTable tbl = true)
    (hres : (MergeCommits env).2 = .ret (some rootF) (some statsF) none) :
    statsF tbl = some ⟨.TableRemoved, 0, 0, 0, 0⟩ ∧ rootF.HasTable tbl = false := by
  unfold MergeCommits at hres
  rw [hm, hr1, hr2, hu] at hres
  obtain ⟨h1, h2⟩ :=
    mergeTableLoop_removed env names root0 (fun _ => none) rootF statsF
      hmem hnd hmt hpresent hres
  refine ⟨h1, ?_⟩
  simp [RootValue.HasTable, h2]

/-- The single-table environment for the C8 witness: table "t" exists in
cm1's root and `MergeTable` reports no merged table for it. -/
def rootW : RootValue Nat := fun n => if n = "t" then some 0 else none

def envC8 : MergeEnv Nat Unit where
  newMergerErr := none
  root1 := .ok rootW
  root2Err := none
  unionNames := .ok ["t"]
  mergeTable := fun _ => .ok (none, ⟨.TableModified, 0, 0, 0, 0⟩)

/-- The root and stats map `MergeCommits` produces on `envC8`. -/
def rootC8F : RootValue Nat := rootW.RemoveTables "t"

def statsC8F : String → Option MergeStats :=
  fun n => if n = "t" then some ⟨.TableRemoved, 0, 0, 0, 0⟩ else none

theorem mergeCommits_table_removed_witness :
    (MergeCommits envC8).2 = .ret (some rootC8F) (some statsC8F) none ∧
    statsC8F "t" = some ⟨.TableRemoved, 0, 0, 0, 0⟩ ∧
    rootC8F.HasTable "t" = false :=
  ⟨rfl,
   (mergeCommits_table_removed envC8 rootW ["t"] "t" ⟨.TableModified, 0, 0, 0, 0⟩
      rootC8F statsC8F rfl rfl rfl rfl (by simp) (by simp) rfl rfl rfl).1,
   (mergeCommits_table_removed envC8 rootW ["t"] "t" ⟨.TableModified, 0, 0, 0, 0⟩
      rootC8F statsC8F rfl rfl rfl rfl (by simp) (by simp) rfl rfl rfl).2⟩

end DoltActions

namespace DoltDiff

/-- Stable insertion of `a` into `l`: `a` is placed before the first
element `b` with `le a b`, so elements tied with `a` keep their relative
order. -/
def insertSorted {α : Type} (le : α → α → Bool) (a : α) : List α → List α
  | [] => [a]
  | b :: bs => if le a b then a :: b :: bs else b :: insertSorted le a bs

/-- A stable insertion sort parameterised by a Boolean `le`. -/
def stableSort {α : Type} (le : α → α → Bool) : List α → List α
  | [] => []
  | a :: as => insertSorted le a (stableSort le as)

/-- The "not strictly greater" relation derived from the `PatchSort`
comparator. -/
def diffLE {V : Type} [DecidableEq V] (format : Format V) (d1 d2 : Difference V) :
    Bool :=
  decide (diffLess format d2 d1 ≠ some true)

/-- Modelled from the spec: the patch order is established by sorting the
collection with a valid, stable sort under the `PatchSort` comparator (the
sort call site itself is outside the reviewed slice). -/
def sortPatch {V : Type} [DecidableEq V] (format : Format V)
    (patch : List (Difference V)) : List (Difference V) :=
  stableSort (diffLE format) patch

theorem insertSorted_perm {α : Type} (le : α → α → Bool) (a : α) (l : List α) :
    (insertSorted le a l).Perm (a :: l) := by
  induction l with
  | nil => exact List.Perm.refl [a]
  | cons b bs ih =>
    by_cases h : le a b = true
    · simp only [insertSorted, if_pos h]
      exact List.Perm.refl _
    · simp only [insertSorted, if_neg h]
      exact (ih.cons b).trans (List.Perm.swap a b bs)

theorem stableSort_perm {α : Type} (le : α → α → Bool) (l : List α) :
    (stableSort le l).Perm l := by
  induction l with
  | nil => exact List.Perm.refl []
  | cons a as ih => exact (insertSorted_perm le a _).trans (ih.cons a)

theorem insertSorted_pairwise {α : Type} {le : α → α → Bool} {P : α → Prop}
    (htr : ∀ a b c, P a → P b → P c → le a b = true → le b c = true →
      le a c = true)
    (hto : ∀ a b, P a → P b → le a b = true ∨ le b a = true)
    {a : α} {l : List α} (hPa : P a) (hPl : ∀ x ∈ l, P x)
    (h : l.Pairwise (fun x y => le x y = true)) :
    (insertSorted le a l).Pairwise (fun x y => le x y = true) := by
  induction l with
  | nil => simp [insertSorted]
  | cons b bs ih =>
    obtain ⟨hb, hbs⟩ := List.pairwise_cons.mp h
    have hPb : P b := hPl b (List.mem_cons_self b bs)
    have hPbs : ∀ x ∈ bs, P x := fun x hx => hPl x (List.mem_cons_of_mem b hx)
    by_cases hab : le a b = true
    · simp only [insertSorted, if_pos hab]
      refine List.pairwise_cons.mpr ⟨?_, h⟩
      intro x hx
      rcases List.mem_cons.mp hx with rfl | hx'
      · exact hab
      · exact htr a b x hPa hPb (hPbs x hx') hab (hb x hx')
    · simp only [insertSorted, if_neg hab]
      refine List.pairwise_cons.mpr ⟨?_, ih hPbs hbs⟩
      intro x hx
      have hx2 : x = a ∨ x ∈ bs := by
        have hm := (insertSorted_perm le a bs).mem_iff.mp hx
        simpa using hm
      rcases hx2 with rfl | hx'
      · rcases hto x b hPa hPb with h' | h'
        · exact absurd h' hab
        · exact h'
      · exact hb x hx'

theorem stableSort_pairwise {α : Type} {le : α → α → Bool} {P : α → Prop}
    (htr : ∀ a b c, P a → P b → P c → le a b = true → le b c = true →
      le a c = true)
    (hto : ∀ a b, P a → P b → le a b = true ∨ le b a = true) :
    ∀ {l : List α}, (∀ x ∈ l, P x) →
    (stableSort le l).Pairwise (fun x y => le x y = true) := by
  intro l
  induction l with
  | nil =>
    intro _
    simp [stableSort]
  | cons a as ih =>
    intro hPl
    have hPa : P a := hPl a (List.mem_cons_self a as)
    have hPas : ∀ x ∈ as, P x := fun x hx => hPl x (List.mem_cons_of_mem a hx)
    have hmem : ∀ x ∈ stableSort le as, P x := fun x hx =>
      hPas x ((stableSort_perm le as).mem_iff.mp hx)
    exact insertSorted_pairwise htr hto hPa hmem (ih hPas)

theorem sorted_perm_eq {α : Type} {le : α → α → Bool} :
    ∀ {l1 l2 : List α},
    (∀ a ∈ l1, ∀ b ∈ l1, le a b = true → le b a = true → a = b) →
    l1.Perm l2 →
    l1.Pairwise (fun x y => le x y = true) →
    l2.Pairwise (fun x y => le x y = true) →
    l1 = l2 := by
  intro l1
  induction l1 with
  | nil =>
    intro l2 _ hperm _ _
    exact hperm.nil_eq
  | cons a t1 ih =>
    intro l2 hanti hperm h1 h2
    cases l2 with
    | nil => exact absurd hperm.symm.nil_eq (by simp)
    | cons b t2 =>
      by_cases hab : a = b
      · subst hab
        have hperm' := hperm.cons_inv
        have h1' := List.pairwise_cons.mp h1
        have h2' := List.pairwise_cons.mp h2
        have hanti' : ∀ x ∈ t1, ∀ y ∈ t1, le x y = true → le y x = true → x = y :=
          fun x hx y hy => hanti x (List.mem_cons_of_mem a hx) y
            (List.mem_cons_of_mem a hy)
        rw [ih hanti' hperm' h1'.2 h2'.2]
      · have ha2 : a ∈ b :: t2 := hperm.subset (List.mem_cons_self a t1)
        have ha2' : a ∈ t2 := by
          rcases List.mem_cons.mp ha2 with h' | h'
          · exact absurd h' hab
          · exact h'
        have hb1 : b ∈ a :: t1 := hperm.symm.subset (List.mem_cons_self b t2)
        have hb1' : b ∈ t1 := by
          rcases List.mem_cons.mp hb1 with h' | h'
          · exact absurd h'.symm hab
          · exact h'
        have hle1 : le a b = true := (List.pairwise_cons.mp h1).1 b hb1'
        have hle2 : le b a = true := (List.pairwise_cons.mp h2).1 a ha2'
        exact absurd
          (hanti a (List.mem_cons_self a t1) b (List.mem_cons_of_mem a hb1')
            hle1 hle2) hab

theorem diffLess_total {V : Type} [DecidableEq V] (format : Format V)
    (d1 d2 : Difference V) : ∃ b, diffLess format d1 d2 = some b := by
  unfold diffLess
  by_cases h : pathEquals d1.Path d2.Path = true
  · rw [if_pos h]
    exact ⟨_, rfl⟩
  · rw [if_neg h]
    exact pathIsLess_total format _ _

theorem diffLess_asymm {V : Type} [DecidableEq V] {format : Format V}
    (hf : format.Lawful) {d1 d2 : Difference V}
    (h : diffLess format d1 d2 = some true) :
    diffLess format d2 d1 = some false := by
  unfold diffLess at h ⊢
  by_cases hp : d1.Path = d2.Path
  · have hp1 : pathEquals d1.Path d2.Path = true := by simp [pathEquals, hp]
    have hp2 : pathEquals d2.Path d1.Path = true := by simp [pathEquals, hp]
    rw [if_pos hp1] at h
    rw [if_pos hp2]
    have hv : vals d1.ChangeType < vals d2.ChangeType := by simpa using h
    have hv2 : ¬(vals d2.ChangeType < vals d1.ChangeType) := by omega
    simp [hv2]
  · have hp1 : pathEquals d1.Path d2.Path = false := by simp [pathEquals, hp]
    have hp2 : pathEquals d2.Path d1.Path = false := by
      simp only [pathEquals, decide_eq_false_iff_not]
      exact fun hc => hp hc.symm
    rw [hp1] at h
    rw [hp2]
    simp only [Bool.false_eq_true, if_false] at h ⊢
    exact pathIsLess_asymm hf h

theorem diffLess_trans {V : Type} [DecidableEq V] {format : Format V}
    (hf : format.Lawful) {d1 d2 d3 : Difference V}
    (h1 : diffLess format d1 d2 = some true)
    (h2 : diffLess format d2 d3 = some true) :
    diffLess format d1 d3 = some true := by
  unfold diffLess at h1 h2 ⊢
  by_cases hp12 : d1.Path = d2.Path <;> by_cases hp23 : d2.Path = d3.Path
  · have he12 : pathEquals d1.Path d2.Path = true := by simp [pathEquals, hp12]
    have he23 : pathEquals d2.Path d3.Path = true := by simp [pathEquals, hp23]
    have he13 : pathEquals d1.Path d3.Path = true := by
      simp [pathEquals, hp12.trans hp23]
    rw [if_pos he12] at h1
    rw [if_pos he23] at h2
    rw [if_pos he13]
    have hv1 : vals d1.ChangeType < vals d2.ChangeType := by simpa using h1
    have hv2 : vals d2.ChangeType < vals d3.ChangeType := by simpa using h2
    have hv3 : vals d1.ChangeType < vals d3.ChangeType := by omega
    simp [hv3]
  · have hp13 : ¬(d1.Path = d3.Path) := by
      rw [hp12]
      exact hp23
    have he23 : pathEquals d2.Path d3.Path = false := by simp [pathEquals, hp23]
    have he13 : pathEquals d1.Path d3.Path = false := by simp [pathEquals, hp13]
    rw [he23] at h2
    rw [he13]
    simp only [Bool.false_eq_true, if_false] at h2 ⊢
    rw [hp12]
    exact h2
  · have hp13 : ¬(d1.Path = d3.Path) := by
      rw [← hp23]
      exact hp12
    have he12 : pathEquals d1.Path d2.Path = false := by simp [pathEquals, hp12]
    have he13 : pathEquals d1.Path d3.Path = false := by simp [pathEquals, hp13]
    rw [he12] at h1
    rw [he13]
    simp only [Bool.false_eq_true, if_false] at h1 ⊢
    rw [← hp23]
    exact h1
  · have he12 : pathEquals d1.Path d2.Path = false := by simp [pathEquals, hp12]
    have he23 : pathEquals d2.Path d3.Path = false := by simp [pathEquals, hp23]
    rw [he12] at h1
    rw [he23] at h2
    simp only [Bool.false_eq_true, if_false] at h1 h2
    have hp13 : ¬(d1.Path = d3.Path) := by
      intro hc
      rw [← hc] at h2
      rw [pathIsLess_asymm hf h1] at h2
      exact Bool.noConfusion (Option.some.inj h2)
    have he13 : pathEquals d1.Path d3.Path = false := by simp [pathEquals, hp13]
    rw [he13]
    simp only [Bool.false_eq_true, if_false]
    exact pathIsLess_trans hf h1 h2

theorem diffLE_total {V : Type} [DecidableEq V] {format : Format V}
    (hf : format.Lawful) (a b : Difference V) :
    diffLE format a b = true ∨ diffLE format b a = true := by
  unfold diffLE
  simp only [decide_eq_true_eq]
  by_cases h : diffLess format b a = some true
  · right
    intro hc
    rw [diffLess_asymm hf h] at hc
    exact Bool.noConfusion (Option.some.inj hc)
  · left
    exact h

theorem diffLE_trans_mem {V : Type} [DecidableEq V] {format : Format V}
    (hf : format.Lawful) {l : List (Difference V)}
    (hties : ∀ d1 ∈ l, ∀ d2 ∈ l, diffLess format d1 d2 ≠ some true →
      diffLess format d2 d1 ≠ some true → d1 = d2)
    {a b c : Difference V} (_ha : a ∈ l) (hb : b ∈ l) (hc : c ∈ l)
    (h1 : diffLE format a b = true) (h2 : diffLE format b c = true) :
    diffLE format a c = true := by
  unfold diffLE at h1 h2 ⊢
  simp only [decide_eq_true_eq] at h1 h2 ⊢
  intro hca
  by_cases hbc : diffLess format b c = some true
  · exact h1 (diffLess_trans hf hbc hca)
  · have hbe : b = c := hties b hb c hc hbc h2
    exact (hbe ▸ h1) hca

/-- Two distinct differences tied under the comparator: equal Path and
ChangeType, different values. -/
def dTie1 : Difference Nat := ⟨[.FieldPath "x"], .DiffChangeModified, some 1, some 2⟩

def dTie2 : Difference Nat := ⟨[.FieldPath "x"], .DiffChangeModified, some 1, some 3⟩

/-- Claim C6 is refuted as stated: the two orderings of a two-element
collection whose elements are distinct but tied under the comparator
(equal Path, equal ChangeType, different values) sort to different
sequences, so permutation invariance fails on such collections. -/
theorem sortPatch_not_permutation_invariant :
    [dTie2, dTie1].Perm [dTie1, dTie2] ∧
    sortPatch natFormat [dTie2, dTie1] ≠ sortPatch natFormat [dTie1, dTie2] :=
  ⟨List.Perm.swap dTie1 dTie2 [], by decide⟩

/-- Claim C6 amended: sorting the same sequence twice is deterministic (a
pure function of the input), and the sorted sequence is invariant under
permutation of the input provided no two distinct differences of the
collection tie under the comparator; two tied distinct differences keep
their input order, as the counterexample shows. -/
theorem sortPatch_perm_invariant {V : Type} [DecidableEq V] (format : Format V)
    (hf : format.Lawful) (l l2 : List (Difference V)) (hperm : l2.Perm l)
    (hties : ∀ d1 ∈ l, ∀ d2 ∈ l, diffLess format d1 d2 ≠ some true →
      diffLess format d2 d1 ≠ some true → d1 = d2) :
    sortPatch format l2 = sortPatch format l := by
  have hmem2 : ∀ x ∈ l2, x ∈ l := fun x hx => hperm.subset hx
  have hmem1 : ∀ x ∈ l, x ∈ l := fun x hx => hx
  have htr : ∀ a b c : Difference V, a ∈ l → b ∈ l → c ∈ l →
      diffLE format a b = true → diffLE format b c = true →
      diffLE format a c = true :=
    fun a b c ha hb hc => diffLE_trans_mem hf hties ha hb hc
  have hto : ∀ a b : Difference V, a ∈ l → b ∈ l →
      diffLE format a b = true ∨ diffLE format b a = true :=
    fun a b _ _ => diffLE_total hf a b
  have hs2 := stableSort_pairwise htr hto hmem2
  have hs1 := stableSort_pairwise htr hto hmem1
  refine sorted_perm_eq ?_ ?_ hs2 hs1
  · intro a haM b hbM hab hba
    have ha : a ∈ l := hmem2 a ((stableSort_perm _ l2).mem_iff.mp haM)
    have hb : b ∈ l := hmem2 b ((stableSort_perm _ l2).mem_iff.mp hbM)
    refine hties a ha b hb ?_ ?_
    · simpa [diffLE] using hba
    · simpa [diffLE] using hab
  · exact ((stableSort_perm _ l2).trans hperm).trans (stableSort_perm _ l).symm

/-- Two non-tied differences for the amended-claim witness. -/
def dW1 : Difference Nat := ⟨[.FieldPath "a"], .DiffChangeRemoved, none, none⟩

def dW2 : Difference Nat := ⟨[.FieldPath "b"], .DiffChangeAdded, none, none⟩

theorem sortPatch_perm_invariant_witness :
    sortPatch natFormat [dW2, dW1] = sortPatch natFormat [dW1, dW2] :=
  sortPatch_perm_invariant natFormat natFormat_lawful [dW1, dW2] [dW2, dW1]
    (List.Perm.swap dW1 dW2 []) (by decide)

end DoltDiff
